import Mathlib

/-!
Verification of the CPR/AMG linear-solver core of opm-simulators
(file src/opm/autodiff/BlackoilAmg.hpp).

We give a shallow embedding of the quasi-IMPES scaling transforms
(Opm::Detail::scaleMatrixQuasiImpes, Opm::Detail::scaleVectorQuasiImpes),
of the level-transfer policy
(OneComponentAggregationLevelTransferPolicy: createCoarseLevelSystem in its
direct-extraction branch, calculateCoarseEntries, moveToCoarseLevel,
moveToFineLevel), of the coarse-level inverse operator wrapper
(OneStepAMGCoarseSolverPolicy::AMGInverseOperator::apply) and of the
top-level preconditioner entry point (BlackoilAmg::apply).

Matrix blocks are dense N x N blocks over the scalar field, modelled here
as functions Fin n -> Fin n -> Rat (the C++ field type is double; we model
its arithmetic exactly).  A block-sparse matrix (Dune::BCRSMatrix) is a
row-wise list of rows, each row a list of (column index, block) pairs,
together with the number of matrix columns.  A block vector
(Dune::BlockVector) is a list of blocks Fin n -> Rat.  The aggregates map
(Dune::Amg::AggregatesMap) maps a fine vertex index to `some aggregateId`
or to `none` for the ISOLATED sentinel.
-/

namespace OpmBlackoilAmg

/-- A dense N x N matrix block (`Dune::FieldMatrix<double,n,n>` /
`Dune::MatrixBlock<double,n,n>`). -/
abbrev Blk (n : ℕ) := Fin n → Fin n → ℚ

/-- A dense block of a block vector (`Dune::FieldVector<double,n>`). -/
abbrev VBlk (n : ℕ) := Fin n → ℚ

/-- A block-sparse matrix (`Dune::BCRSMatrix` of N x N blocks): the number
of (block) columns and the rows, each row a list of
(column index, block) pairs in traversal order. -/
structure BMat (n : ℕ) where
  cols : ℕ
  rows : List (List (ℕ × Blk n))

/-- A scalar sparse matrix (the coarse matrix: `BCRSMatrix` of 1 x 1
blocks), in the same representation. -/
structure SMat where
  cols : ℕ
  rows : List (List (ℕ × ℚ))

/-- A block vector (`Dune::BlockVector` of `FieldVector<double,n>`). -/
abbrev FVec (n : ℕ) := List (VBlk n)

/-- One iteration of the row-combination loop of the quasi-IMPES scaling:
if the loop index i is the pressure index p the iteration is skipped,
otherwise entry i of the block is added into entry p
(`block[pressureIndex] += block[i]`). -/
def qiStep {M : Type} [Add M] {n : ℕ} (p : Fin n) (w : Fin n → M)
    (i : Fin n) : Fin n → M :=
  if i = p then w else fun r => if r = p then w r + w i else w r

/-- The row-combination loop shared by `scaleMatrixQuasiImpes` and
`scaleVectorQuasiImpes`: iterate over the row indices i of a block in
order and, for every i different from the pressure index p, add entry i
into entry p.  For a matrix block, M is a whole block row (`Fin n → ℚ`);
for a vector block, M is a scalar. -/
def quasiImpesFold {M : Type} [Add M] {n : ℕ} (p : Fin n) (v : Fin n → M) : Fin n → M :=
  (List.finRange n).foldl (qiStep p) v

/-- The effect of `scaleMatrixQuasiImpes` on one matrix block: the loop
body of Opm::Detail::scaleMatrixQuasiImpes (BlackoilAmg.hpp lines 100-115),
`block[pressureIndex][j] += block[i][j]` for all i ≠ pressureIndex, j. -/
def scaleBlock {n : ℕ} (p : Fin n) (B : Blk n) : Blk n :=
  quasiImpesFold p B

/-- The effect of `scaleVectorQuasiImpes` on one vector block
(BlackoilAmg.hpp lines 130-139): `block[pressureIndex] += block[i]`
for all i ≠ pressureIndex. -/
def scaleVecBlock {n : ℕ} (p : Fin n) (b : VBlk n) : VBlk n :=
  quasiImpesFold p b

/-- Opm::Detail::scaleMatrixQuasiImpes (BlackoilAmg.hpp lines 91-117):
copy the operator matrix and apply the row combination to every stored
block.  The returned matrix is the freshly allocated scaled copy. -/
def scaleMatrixQuasiImpes {n : ℕ} (p : Fin n) (m : BMat n) : BMat n :=
  ⟨m.cols, m.rows.map (fun row => row.map (fun e => (e.1, scaleBlock p e.2)))⟩

/-- Opm::Detail::scaleVectorQuasiImpes (BlackoilAmg.hpp lines 125-140):
apply the row combination to every block of a block vector, in place. -/
def scaleVectorQuasiImpes {n : ℕ} (p : Fin n) (v : FVec n) : FVec n :=
  v.map (scaleVecBlock p)

/-- The stored entry of a block matrix at row i, position j within the row
(`none` when out of range). -/
def entryAt {n : ℕ} (m : BMat n) (i j : ℕ) : Option (ℕ × Blk n) :=
  m.rows[i]?.bind (fun r => r[j]?)

/-- The stored entry of a scalar matrix at row i, position j within the
row (`none` when out of range). -/
def sEntryAt (m : SMat) (i j : ℕ) : Option (ℕ × ℚ) :=
  m.rows[i]?.bind (fun r => r[j]?)

/-- The direct-extraction branch of
OneComponentAggregationLevelTransferPolicy::createCoarseLevelSystem
(BlackoilAmg.hpp lines 728-757, the `cpr_pressure_aggregation_ == false`
case): the coarse matrix is created with the fine matrix dimensions, its
sparsity pattern copies the fine pattern row by row, and each coarse
scalar entry is assigned the fine block's
[COMPONENT_INDEX][COMPONENT_INDEX] component. -/
def createCoarseLevelSystemDirect {n : ℕ} (p : Fin n) (m : BMat n) : SMat :=
  ⟨m.cols, m.rows.map (fun row => row.map (fun e => (e.1, e.2 p p)))⟩

/-- One `+=` update of the coarse matrix:
`(*coarseLevelMatrix_)[I][J] += v`.  The coarse matrix is modelled as a
total function on index pairs. -/
def addEntry (I J : ℕ) (v : ℚ) (f : ℕ → ℕ → ℚ) : ℕ → ℕ → ℚ :=
  fun a b => if a = I ∧ b = J then f a b + v else f a b

/-- The body of the outer loop of calculateCoarseEntries for one fine row
with index r: skip the row if its aggregate is ISOLATED (`none`),
otherwise accumulate every entry whose column aggregate is not ISOLATED
into the coarse matrix. -/
def accRow {n : ℕ} (p : Fin n) (agg : ℕ → Option ℕ) (r : ℕ)
    (row : List (ℕ × Blk n)) (f : ℕ → ℕ → ℚ) : ℕ → ℕ → ℚ :=
  match agg r with
  | none => f
  | some I =>
      row.foldl (fun g e =>
        match agg e.1 with
        | none => g
        | some J => addEntry I J (e.2 p p) g) f

/-- OneComponentAggregationLevelTransferPolicy::calculateCoarseEntries
(BlackoilAmg.hpp lines 766-787): starting from the zeroed coarse matrix
(`*coarseLevelMatrix_ = 0`), for every fine row whose aggregate i is not
ISOLATED and every entry in it whose column aggregate j is not ISOLATED,
accumulate the fine block's [COMPONENT_INDEX][COMPONENT_INDEX] component
into coarse entry (i, j). -/
def calculateCoarseEntries {n : ℕ} (p : Fin n) (agg : ℕ → Option ℕ)
    (m : BMat n) : ℕ → ℕ → ℚ :=
  m.rows.enum.foldl (fun f re => accRow p agg re.1 re.2 f) (fun _ _ => 0)

/-- OneComponentAggregationLevelTransferPolicy::moveToCoarseLevel
(BlackoilAmg.hpp lines 789-818): zero the coarse right-hand side `rhs_`,
then restrict the fine defect.  In aggregation mode
(`cprAgg = true`) every fine block whose vertex aggregate is not ISOLATED
accumulates its pressure component into `rhs_[aggregate]`; in
direct-extraction mode `rhs_[index]` is assigned the pressure component.
The coarse right-hand side is modelled as a total function on coarse
indices (zero outside the stored range). -/
def moveToCoarseLevel {n : ℕ} (cprAgg : Bool) (p : Fin n)
    (agg : ℕ → Option ℕ) (fine : FVec n) : ℕ → ℚ :=
  if cprAgg then
    fine.enum.foldl (fun rhs kb =>
      match agg kb.1 with
      | none => rhs
      | some I => fun a => if a = I then rhs a + kb.2 p else rhs a)
      (fun _ => 0)
  else
    fine.enum.foldl (fun rhs kb => fun a => if a = kb.1 then kb.2 p else rhs a)
      (fun _ => 0)

/-- OneComponentAggregationLevelTransferPolicy::moveToFineLevel
(BlackoilAmg.hpp lines 820-844): in aggregation mode (`cprAgg = true`)
the coarse solution `lhs_` is first scaled by the prolongation damping
factor (`this->lhs_ *= prolongDamp_`), then for every fine block whose
vertex aggregate is not ISOLATED the coarse solution at that aggregate is
added into the block's pressure component
(`(*block)[COMPONENT_INDEX] += this->lhs_[vertex]`); ISOLATED vertices
are left unchanged.  In direct-extraction mode the coarse solution at the
block's own index is assigned to the pressure component
(`(*block)[COMPONENT_INDEX] = this->lhs_[block-begin]`).  The sequential
`copyOwnerToAll` synchronisation is the identity and is not modelled. -/
def moveToFineLevel {n : ℕ} (cprAgg : Bool) (p : Fin n)
    (agg : ℕ → Option ℕ) (damp : ℚ) (lhs : ℕ → ℚ) (fine : FVec n) : FVec n :=
  if cprAgg then
    fine.enum.map (fun kb =>
      match agg kb.1 with
      | none => kb.2
      | some I => fun c => if c = p then kb.2 c + damp * lhs I else kb.2 c)
  else
    fine.enum.map (fun kb => fun c => if c = p then lhs kb.1 else kb.2 c)

/-- The block of a block vector at index k, defaulting to the zero block
out of range (used to observe vectors pointwise). -/
def vecAt {n : ℕ} (v : FVec n) (k : ℕ) : VBlk n :=
  v.getD k (fun _ => 0)

/-- A zero fine block vector of the given length. -/
def zeroVec (n len : ℕ) : FVec n :=
  List.replicate len (fun _ => 0)

/-- The number of fine vertices of the given fine vector whose aggregate
is I (the size of aggregate I). -/
def aggSize {n : ℕ} (agg : ℕ → Option ℕ) (I : ℕ) (fine : FVec n) : ℕ :=
  (fine.enum.filter (fun kb => decide (agg kb.1 = some I))).length

/-- The CPR configuration parameters consumed by the coarse solver
(struct CPRParameter, fields used in BlackoilAmg.hpp). -/
structure CPRParameter where
  cpr_solver_tol_ : ℚ
  cpr_max_ell_iter_ : ℕ
  cpr_solver_verbose_ : Bool
  cpr_use_bicgstab_ : Bool
  cpr_use_amg_ : Bool
  cpr_pressure_aggregation_ : Bool

/-- OneStepAMGCoarseSolverPolicy::AMGInverseOperator::apply(x, b,
reduction, res) (BlackoilAmg.hpp lines 378-453).  The Krylov accelerators
(Dune::BiCGSTABSolver / Dune::CGSolver) live outside this repository, so
they are abstracted as function arguments taking the preconditioner, the
tolerance, the maximum iteration count, the verbosity and the vectors x
and b, and returning the updated x together with the result structure.
The method discards its `reduction` argument (DUNE_UNUSED_PARAMETER),
selects the preconditioner built at construction (the AMG hierarchy when
`cpr_use_amg_`, otherwise the smoother), and runs the accelerator chosen
by `cpr_use_bicgstab_` with tolerance `cpr_solver_tol_`, iteration limit
`cpr_max_ell_iter_` and verbosity 1 exactly when `cpr_solver_verbose_`
holds on rank 0. -/
def amgInverseApply {V R Prec : Type} (param : CPRParameter)
    (amg smoother : Prec)
    (bicgstab cg : Prec → ℚ → ℕ → ℕ → V → V → V × R)
    (rank : ℕ) (x b : V) (reduction : ℚ) : V × R :=
  let _ := reduction
  let prec := if param.cpr_use_amg_ then amg else smoother
  let tolerance := param.cpr_solver_tol_
  let maxit := param.cpr_max_ell_iter_
  let verbosity := if param.cpr_solver_verbose_ ∧ rank = 0 then 1 else 0
  if param.cpr_use_bicgstab_ then bicgstab prec tolerance maxit verbosity x b
  else cg prec tolerance maxit verbosity x b

/-- The default-tolerance overload apply(x, b, res) (BlackoilAmg.hpp
lines 455-458): delegates with reduction 1e-8. -/
def amgInverseApplyDefault {V R Prec : Type} (param : CPRParameter)
    (amg smoother : Prec)
    (bicgstab cg : Prec → ℚ → ℕ → ℕ → V → V → V × R)
    (rank : ℕ) (x b : V) : V × R :=
  amgInverseApply param amg smoother bicgstab cg rank x b (1 / 100000000)

/-- BlackoilAmg::apply(v, d) (BlackoilAmg.hpp lines 965-971): copy the
incoming defect (`auto scaledD = d`), apply the quasi-IMPES vector
scaling to the copy, and hand the scaled copy to the two-level method.
The result's first component is the caller's defect after the call
(untouched, since only the copy is scaled); the second component is the
defect the two-level method receives. -/
def blackoilAmgApply {n : ℕ} (p : Fin n) (d : FVec n) : FVec n × FVec n :=
  let scaledD := scaleVectorQuasiImpes p d
  (d, scaledD)

/-- The part of the BlackoilAmg constructor state relevant to the matrix
scaling: the caller's fine matrix and the scaled matrix owned by the
preconditioner (absent before construction). -/
structure ConstructorState (n : ℕ) where
  fineMatrix : BMat n
  scaledMatrix : Option (BMat n)

/-- The effect of the call Detail::scaleMatrixQuasiImpes(fineOperator,
comm, COMPONENT_INDEX) in the BlackoilAmg constructor (BlackoilAmg.hpp
lines 939-952): a fresh copy of op.getmat() is allocated
(`new Matrix(op.getmat())`), the row combination is applied to the copy
only, and the copy is stored in the preconditioner; the caller's fine
matrix is not written. -/
def runScaleMatrixQuasiImpes {n : ℕ} (p : Fin n)
    (st : ConstructorState n) : ConstructorState n :=
  { fineMatrix := st.fineMatrix
    scaledMatrix := some (scaleMatrixQuasiImpes p st.fineMatrix) }

/-- A concrete 2 x 2 block with zero pressure row (row 0) and ones in the
other row; used to exhibit the non-idempotence of the scaling. -/
def blkC6 : Blk 2 := fun i _ => if i = 0 then 0 else 1

/-- A concrete one-entry block matrix built from `blkC6`. -/
def mC6 : BMat 2 := ⟨1, [[(0, blkC6)]]⟩

/-- A concrete aggregates map putting every fine vertex into aggregate 0. -/
def aggC4 : ℕ → Option ℕ := fun _ => some 0

/-- A concrete fine defect vector with pressure component 1 at both
blocks. -/
def fineC4 : FVec 2 := [fun _ => 1, fun _ => 1]

/-- A concrete aggregates map with singleton aggregates for vertices 0
and 1 and ISOLATED beyond. -/
def aggW4 : ℕ → Option ℕ := fun k => if k < 2 then some k else none

/-- A concrete fine defect vector with pressure component 5 at both
blocks and differing non-pressure components. -/
def fineW4 : FVec 2 := [fun i => if i = 0 then 5 else 1, fun i => if i = 0 then 5 else 2]

/-- A concrete one-block fine vector with pressure component 5. -/
def fineC5 : FVec 2 := [fun _ => 5]

/-- A concrete coarse solution holding 3 at every coarse index. -/
def lhsC5 : ℕ → ℚ := fun _ => 3

/-- A concrete one-block fine vector with components 2 and 7. -/
def fineW5 : FVec 2 := [fun i => if i = 0 then 2 else 7]

/-- A concrete coarse solution holding 10 at every coarse index. -/
def lhsW5 : ℕ → ℚ := fun _ => 10

/-- A concrete aggregates map putting every vertex into aggregate 0. -/
def aggW5 : ℕ → Option ℕ := fun _ => some 0

/-- A concrete one-block defect vector with components 3 and 4. -/
def dW7 : FVec 2 := [fun i => if i = 0 then 3 else 4]

/-- The accumulated effect of the row-combination loop over an arbitrary
list of loop indices: entries other than the pressure index p are never
written, and entry p has absorbed every visited entry different from p. -/
theorem qiFoldAux {M : Type} [AddCommMonoid M] {n : ℕ} (p : Fin n) :
    ∀ (l : List (Fin n)) (v : Fin n → M) (r : Fin n),
      l.foldl (qiStep p) v r
        = if r = p then v p + (l.map (fun i => if i = p then 0 else v i)).sum
          else v r := by
  intro l
  induction l with
  | nil =>
    intro v r
    by_cases hr : r = p <;> simp [hr]
  | cons i l ih =>
    intro v r
    rw [List.foldl_cons, ih]
    by_cases hip : i = p
    · have hstep : qiStep p v i = v := by rw [qiStep, if_pos hip]
      rw [hstep]
      by_cases hr : r = p <;> simp [hr, hip]
    · have hfun : (fun j => if j = p then (0 : M) else qiStep p v i j)
          = fun j => if j = p then (0 : M) else v j := by
        funext j
        by_cases hj : j = p <;> simp [qiStep, hip, hj]
      by_cases hr : r = p
      · rw [if_pos hr, if_pos hr]
        simp only [List.map_cons, List.sum_cons, if_neg hip, hfun]
        have hp : qiStep p v i p = v p + v i := by simp [qiStep, hip]
        rw [hp, add_assoc]
      · simp [qiStep, hr, hip]

/-- Closed form of the row-combination loop: entry p becomes the sum of
all entries, every other entry is unchanged. -/
theorem quasiImpesFold_apply {M : Type} [AddCommMonoid M] {n : ℕ}
    (p : Fin n) (v : Fin n → M) (r : Fin n) :
    quasiImpesFold p v r = if r = p then ∑ i, v i else v r := by
  rw [quasiImpesFold, qiFoldAux]
  by_cases hr : r = p
  · subst hr
    simp only [if_pos rfl]
    have h1 : ((List.finRange n).map (fun i => if i = r then (0 : M) else v i)).sum
        = ∑ i, (if i = r then (0 : M) else v i) := (Fin.sum_univ_def _).symm
    rw [h1]
    have h2 : ∑ i, v i
        = ∑ i, ((if i = r then v i else 0) + (if i = r then (0 : M) else v i)) := by
      refine Finset.sum_congr rfl ?_
      intro i _
      by_cases hi : i = r <;> simp [hi]
    rw [h2, Finset.sum_add_distrib, Finset.sum_ite_eq' Finset.univ r v]
    simp
  · simp [hr]

/-- Closed form of the block transform of `scaleMatrixQuasiImpes`: the
pressure row of the scaled block is the sum of all rows of the original
block and every other row is unchanged. -/
theorem scaleBlock_apply {n : ℕ} (p : Fin n) (B : Blk n) (r c : Fin n) :
    scaleBlock p B r c = if r = p then ∑ i, B i c else B r c := by
  rw [scaleBlock]
  rw [quasiImpesFold_apply (M := Fin n → ℚ) p B r]
  by_cases hr : r = p <;> simp [hr, Finset.sum_apply]

/-- Closed form of the block transform of `scaleVectorQuasiImpes`: the
pressure component of the scaled block is the sum of all components of
the original block and every other component is unchanged. -/
theorem scaleVecBlock_apply {n : ℕ} (p : Fin n) (b : VBlk n) (r : Fin n) :
    scaleVecBlock p b r = if r = p then ∑ i, b i else b r := by
  rw [scaleVecBlock]
  exact quasiImpesFold_apply p b r

/-- C1: for every block matrix and every pressure index p, the matrix
produced by scaleMatrixQuasiImpes keeps every stored position and
transforms its block so that the pressure row of the scaled block is the
sum of all rows of the original block, while every row other than the
pressure row is unchanged. -/
theorem C1_scaleMatrixQuasiImpes_rows {n : ℕ} (p : Fin n) (m : BMat n) (i j : ℕ) :
    entryAt (scaleMatrixQuasiImpes p m) i j
        = (entryAt m i j).map (fun e => (e.1, scaleBlock p e.2))
    ∧ ∀ (B : Blk n) (r c : Fin n),
        scaleBlock p B r c = if r = p then ∑ t, B t c else B r c := by
  constructor
  · rw [entryAt, entryAt, scaleMatrixQuasiImpes]
    cases hrows : m.rows[i]? with
    | none => simp [List.getElem?_map, hrows]
    | some row =>
      cases hrow : row[j]? with
      | none => simp [List.getElem?_map, hrows, hrow]
      | some e => simp [List.getElem?_map, hrows, hrow]
  · intro B r c
    exact scaleBlock_apply p B r c

/-- C8: the quasi-IMPES matrix scaling neither introduces nor removes a
stored block: the scaled matrix has the same column dimension, the same
number of rows and exactly the same stored (row, column) positions as the
input matrix. -/
theorem C8_sparsity_preserved {n : ℕ} (p : Fin n) (m : BMat n) :
    (scaleMatrixQuasiImpes p m).cols = m.cols
    ∧ (scaleMatrixQuasiImpes p m).rows.length = m.rows.length
    ∧ (scaleMatrixQuasiImpes p m).rows.map (fun r => r.map Prod.fst)
        = m.rows.map (fun r => r.map Prod.fst) := by
  refine ⟨rfl, by simp [scaleMatrixQuasiImpes], ?_⟩
  rw [scaleMatrixQuasiImpes]
  simp [List.map_map, Function.comp]

/-- C2: in direct-extraction mode, createCoarseLevelSystem produces a
coarse matrix with the fine matrix's dimensions, the same stored
sparsity pattern, and at every stored position the scalar entry is the
fine block's [pressureIndex][pressureIndex] component. -/
theorem C2_createCoarseLevelSystem_direct {n : ℕ} (p : Fin n) (m : BMat n) :
    (createCoarseLevelSystemDirect p m).cols = m.cols
    ∧ (createCoarseLevelSystemDirect p m).rows.length = m.rows.length
    ∧ (createCoarseLevelSystemDirect p m).rows.map (fun r => r.map Prod.fst)
        = m.rows.map (fun r => r.map Prod.fst)
    ∧ ∀ i j, sEntryAt (createCoarseLevelSystemDirect p m) i j
        = (entryAt m i j).map (fun e => (e.1, e.2 p p)) := by
  refine ⟨rfl, by simp [createCoarseLevelSystemDirect], ?_, ?_⟩
  · rw [createCoarseLevelSystemDirect]
    simp [List.map_map, Function.comp]
  · intro i j
    rw [sEntryAt, entryAt, createCoarseLevelSystemDirect]
    cases hrows : m.rows[i]? with
    | none => simp [List.getElem?_map, hrows]
    | some row =>
      cases hrow : row[j]? with
      | none => simp [List.getElem?_map, hrows, hrow]
      | some e => simp [List.getElem?_map, hrows, hrow]

/-- C6 fails on the code: scaling an already-scaled matrix again changes
it.  For the concrete one-block matrix `mC6` (pressure row zero, other
row ones) the doubly-scaled pressure-pressure entry is 2 while the
singly-scaled one is 1. -/
theorem C6_counterexample :
    (entryAt (scaleMatrixQuasiImpes 0 (scaleMatrixQuasiImpes 0 mC6)) 0 0).map
        (fun e => e.2 0 0)
      ≠ (entryAt (scaleMatrixQuasiImpes 0 mC6) 0 0).map (fun e => e.2 0 0) := by
  have hA : scaleBlock 0 blkC6 (0 : Fin 2) 0 = 1 := by
    rw [scaleBlock_apply]
    norm_num [Fin.sum_univ_two, blkC6]
  have hB : scaleBlock 0 blkC6 (1 : Fin 2) 0 = 1 := by
    rw [scaleBlock_apply]
    norm_num [blkC6, Fin.ext_iff]
  have hC : scaleBlock 0 (scaleBlock 0 blkC6) (0 : Fin 2) 0 = 2 := by
    rw [scaleBlock_apply, if_pos rfl, Fin.sum_univ_two, hA, hB]
    norm_num
  have hstruct1 : entryAt (scaleMatrixQuasiImpes 0 (scaleMatrixQuasiImpes 0 mC6)) 0 0
      = some (0, scaleBlock 0 (scaleBlock 0 blkC6)) := rfl
  have hstruct2 : entryAt (scaleMatrixQuasiImpes 0 mC6) 0 0
      = some (0, scaleBlock 0 blkC6) := rfl
  rw [hstruct1, hstruct2]
  simp only [Option.map_some', ne_eq, Option.some.injEq]
  rw [hC, hA]
  norm_num

/-- C6 amended: applying the quasi-IMPES scaling twice does not in
general reproduce the singly-scaled matrix.  The doubly-scaled matrix
keeps every stored position, and its block at any stored position has
pressure row equal to the original pressure row plus twice the sum of the
other rows, all other rows unchanged; so a second application leaves the
matrix unchanged only when the non-pressure rows of every stored block
sum to zero.  (The code invokes the transform exactly once per
preconditioner construction, on a fresh copy of the fine matrix, so no
accumulation occurs there.) -/
theorem C6_double_scaling {n : ℕ} (p : Fin n) (m : BMat n) (i j : ℕ) :
    entryAt (scaleMatrixQuasiImpes p (scaleMatrixQuasiImpes p m)) i j
        = (entryAt m i j).map (fun e => (e.1, scaleBlock p (scaleBlock p e.2)))
    ∧ ∀ (B : Blk n) (r c : Fin n),
        scaleBlock p (scaleBlock p B) r c
          = if r = p then B p c + 2 * ∑ t ∈ Finset.univ.erase p, B t c
            else B r c := by
  constructor
  · rw [entryAt, entryAt, scaleMatrixQuasiImpes, scaleMatrixQuasiImpes]
    cases hrows : m.rows[i]? with
    | none => simp [List.getElem?_map, hrows]
    | some row =>
      cases hrow : row[j]? with
      | none => simp [List.getElem?_map, hrows, hrow]
      | some e => simp [List.getElem?_map, hrows, hrow]
  · intro B r c
    by_cases hr : r = p
    · rw [scaleBlock_apply, if_pos hr, if_pos hr]
      have e1 : ∑ t, scaleBlock p B t c
          = ∑ t, (if t = p then (∑ s, B s c) else B t c) :=
        Finset.sum_congr rfl (fun t _ => scaleBlock_apply p B t c)
      have e2 : ∑ t, (if t = p then (∑ s, B s c) else B t c)
          = (∑ s, B s c) + ∑ t ∈ Finset.univ.erase p, B t c := by
        rw [← Finset.add_sum_erase Finset.univ _ (Finset.mem_univ p)]
        congr 1
        · simp
        · refine Finset.sum_congr rfl ?_
          intro t ht
          rw [if_neg (Finset.mem_erase.mp ht).1]
      have e3 : (∑ s, B s c) = B p c + ∑ t ∈ Finset.univ.erase p, B t c :=
        (Finset.add_sum_erase Finset.univ _ (Finset.mem_univ p)).symm
      rw [e1, e2, e3]
      ring
    · simp [scaleBlock_apply, hr]

/-- The inner loop of calculateCoarseEntries over one fine row whose row
aggregate is I0: the coarse value at (I, J) grows by exactly the
pressure-pressure components of the row entries whose column aggregate is
J, provided I = I0. -/
theorem accRowAux {n : ℕ} (p : Fin n) (agg : ℕ → Option ℕ) (I0 : ℕ) :
    ∀ (row : List (ℕ × Blk n)) (g : ℕ → ℕ → ℚ) (I J : ℕ),
      (row.foldl (fun g e =>
          match agg e.1 with
          | none => g
          | some J0 => addEntry I0 J0 (e.2 p p) g) g) I J
        = g I J + (row.map (fun e =>
            if I = I0 ∧ agg e.1 = some J then e.2 p p else 0)).sum := by
  intro row
  induction row with
  | nil => intro g I J; simp
  | cons e row ih =>
    intro g I J
    rw [List.foldl_cons]
    cases he : agg e.1 with
    | none =>
      rw [ih]
      simp only [List.map_cons, List.sum_cons, he]
      have hz : (if I = I0 ∧ (none : Option ℕ) = some J then e.2 p p else 0) = 0 := by
        refine if_neg ?_
        rintro ⟨-, h2⟩
        exact Option.noConfusion h2
      rw [hz, zero_add]
    | some J0 =>
      rw [ih]
      simp only [List.map_cons, List.sum_cons, he]
      have hadd : addEntry I0 J0 (e.2 p p) g I J
          = if I = I0 ∧ J = J0 then g I J + e.2 p p else g I J := rfl
      rw [hadd]
      by_cases hI : I = I0
      · by_cases hJ : J = J0
        · rw [if_pos ⟨hI, hJ⟩]
          have hc : (if I = I0 ∧ (some J0 : Option ℕ) = some J then e.2 p p else 0)
              = e.2 p p := by
            refine if_pos ⟨hI, ?_⟩
            rw [hJ]
          rw [hc]
          ring
        · rw [if_neg (fun hc => hJ hc.2)]
          have hc : (if I = I0 ∧ (some J0 : Option ℕ) = some J then e.2 p p else 0)
              = 0 := by
            refine if_neg ?_
            rintro ⟨-, h2⟩
            exact hJ (Option.some.inj h2).symm
          rw [hc, zero_add]
      · rw [if_neg (fun hc => hI hc.1)]
        have hc : (if I = I0 ∧ (some J0 : Option ℕ) = some J then e.2 p p else 0)
            = 0 := by
          refine if_neg ?_
          rintro ⟨h1, -⟩
          exact hI h1
        rw [hc, zero_add]

/-- One outer iteration of calculateCoarseEntries: a fine row with
ISOLATED aggregate contributes nothing, otherwise the coarse value at
(I, J) grows by the pressure-pressure components of those row entries
whose row aggregate is I and column aggregate is J. -/
theorem accRow_apply {n : ℕ} (p : Fin n) (agg : ℕ → Option ℕ) (r : ℕ)
    (row : List (ℕ × Blk n)) (f : ℕ → ℕ → ℚ) (I J : ℕ) :
    accRow p agg r row f I J
      = f I J + (row.map (fun e =>
          if agg r = some I ∧ agg e.1 = some J then e.2 p p else 0)).sum := by
  rw [accRow]
  cases hr : agg r with
  | none =>
    have hz : (row.map (fun e =>
        if (none : Option ℕ) = some I ∧ agg e.1 = some J
        then e.2 p p else 0)).sum = 0 := by
      apply List.sum_eq_zero
      intro x hx
      obtain ⟨e, -, he⟩ := List.mem_map.mp hx
      rw [← he]
      refine if_neg ?_
      rintro ⟨h1, -⟩
      exact Option.noConfusion h1
    rw [hz, add_zero]
  | some I0 =>
    show (row.foldl (fun g e =>
        match agg e.1 with
        | none => g
        | some J0 => addEntry I0 J0 (e.2 p p) g) f) I J
      = f I J + (row.map (fun e =>
          if (some I0 : Option ℕ) = some I ∧ agg e.1 = some J
          then e.2 p p else 0)).sum
    rw [accRowAux]
    have hfun : (fun (e : ℕ × Blk n) =>
          if I = I0 ∧ agg e.1 = some J then e.2 p p else 0)
        = fun e => if (some I0 : Option ℕ) = some I ∧ agg e.1 = some J
            then e.2 p p else 0 := by
      funext e
      by_cases h1 : I = I0
      · simp [h1]
      · simp [h1, Ne.symm h1]
    rw [hfun]

/-- The outer loop of calculateCoarseEntries over a list of indexed fine
rows, with a general accumulator. -/
theorem calcFoldAux {n : ℕ} (p : Fin n) (agg : ℕ → Option ℕ) :
    ∀ (l : List (ℕ × List (ℕ × Blk n))) (f : ℕ → ℕ → ℚ) (I J : ℕ),
      (l.foldl (fun f re => accRow p agg re.1 re.2 f) f) I J
        = f I J + (l.map (fun re =>
            (re.2.map (fun e => if agg re.1 = some I ∧ agg e.1 = some J
              then e.2 p p else 0)).sum)).sum := by
  intro l
  induction l with
  | nil => intro f I J; simp
  | cons re l ih =>
    intro f I J
    rw [List.foldl_cons, ih, accRow_apply]
    simp only [List.map_cons, List.sum_cons]
    ring

/-- C3: in aggregation mode, every coarse entry (I, J) computed by
calculateCoarseEntries on the zero-initialised coarse matrix is the sum
of the fine [pressureIndex][pressureIndex] block components over exactly
the stored fine positions whose row aggregate is I and whose column
aggregate is J; positions with an ISOLATED endpoint (aggregate `none`)
contribute to no coarse entry. -/
theorem C3_calculateCoarseEntries {n : ℕ} (p : Fin n) (agg : ℕ → Option ℕ)
    (m : BMat n) (I J : ℕ) :
    calculateCoarseEntries p agg m I J
      = (m.rows.enum.map (fun re =>
          (re.2.map (fun e => if agg re.1 = some I ∧ agg e.1 = some J
            then e.2 p p else 0)).sum)).sum := by
  rw [calculateCoarseEntries, calcFoldAux]
  simp

/-- The aggregation-mode restriction fold of moveToCoarseLevel over an
arbitrary indexed block list: each coarse index a accumulates the
pressure components of exactly the blocks whose aggregate is a. -/
theorem mtcAggAux {n : ℕ} (p : Fin n) (agg : ℕ → Option ℕ) :
    ∀ (l : List (ℕ × VBlk n)) (f : ℕ → ℚ) (a : ℕ),
      (l.foldl (fun rhs kb =>
          match agg kb.1 with
          | none => rhs
          | some I => fun x => if x = I then rhs x + kb.2 p else rhs x) f) a
        = f a + (l.map (fun kb => if agg kb.1 = some a then kb.2 p else 0)).sum := by
  intro l
  induction l with
  | nil => intro f a; simp
  | cons kb l ih =>
    intro f a
    rw [List.foldl_cons]
    cases hkb : agg kb.1 with
    | none =>
      rw [ih]
      simp only [List.map_cons, List.sum_cons, hkb]
      have hz : (if (none : Option ℕ) = some a then kb.2 p else 0) = 0 := by
        refine if_neg ?_
        intro h1
        exact Option.noConfusion h1
      rw [hz, zero_add]
    | some I =>
      rw [ih]
      simp only [List.map_cons, List.sum_cons, hkb]
      by_cases ha : a = I
      · rw [if_pos ha]
        have hc : (if (some I : Option ℕ) = some a then kb.2 p else 0)
            = kb.2 p := by
          refine if_pos ?_
          rw [ha]
        rw [hc]
        ring
      · rw [if_neg ha]
        have hc : (if (some I : Option ℕ) = some a then kb.2 p else 0) = 0 := by
          refine if_neg ?_
          intro h1
          exact ha (Option.some.inj h1).symm
        rw [hc, zero_add]

/-- When every block of the fine vector holds the constant c at the
pressure component, the aggregation-mode restriction contributes
c times the number of fine vertices in the aggregate. -/
theorem mtcSumConst {n : ℕ} (p : Fin n) (agg : ℕ → Option ℕ) (c : ℚ) (a : ℕ) :
    ∀ (fine : FVec n) (s : ℕ),
      (∀ k, k < fine.length → (fine.getD k (fun _ => 0)) p = c) →
      ((List.enumFrom s fine).map
          (fun kb => if agg kb.1 = some a then kb.2 p else 0)).sum
        = c * (((List.enumFrom s fine).filter
            (fun kb => decide (agg kb.1 = some a))).length : ℚ) := by
  intro fine
  induction fine with
  | nil => intro s h; simp
  | cons b t ih =>
    intro s h
    have hb : b p = c := by
      have h0 := h 0 (by simp)
      simpa using h0
    have ht : ∀ k, k < t.length → (t.getD k (fun _ => 0)) p = c := by
      intro k hk
      have hs := h (k + 1) (by simpa using Nat.succ_lt_succ hk)
      simpa using hs
    have hunfold : List.enumFrom s (b :: t) = (s, b) :: List.enumFrom (s + 1) t := rfl
    rw [hunfold]
    simp only [List.map_cons, List.sum_cons, List.filter_cons]
    rw [ih (s + 1) ht]
    by_cases hq : agg s = some a
    · simp [hq, hb]
      ring
    · simp [hq]

/-- When every block of the fine vector holds the constant c at the
pressure component, the direct-mode restriction fold of moveToCoarseLevel
assigns c to every coarse index in range and leaves the accumulator
elsewhere. -/
theorem mtcDirectConst {n : ℕ} (p : Fin n) (c : ℚ) :
    ∀ (fine : FVec n) (s : ℕ) (f : ℕ → ℚ),
      (∀ k, k < fine.length → (fine.getD k (fun _ => 0)) p = c) →
      ∀ a, ((List.enumFrom s fine).foldl
          (fun rhs kb => fun x => if x = kb.1 then kb.2 p else rhs x) f) a
        = if s ≤ a ∧ a < s + fine.length then c else f a := by
  intro fine
  induction fine with
  | nil =>
    intro s f h a
    have hcond : ¬(s ≤ a ∧ a < s + List.length (List.nil : FVec n)) := by
      simp only [List.length_nil]
      omega
    have hunfold : List.enumFrom s (List.nil : FVec n) = [] := rfl
    rw [hunfold, List.foldl_nil, if_neg hcond]
  | cons b t ih =>
    intro s f h a
    have hb : b p = c := by
      have h0 := h 0 (by simp)
      simpa using h0
    have ht : ∀ k, k < t.length → (t.getD k (fun _ => 0)) p = c := by
      intro k hk
      have hs := h (k + 1) (by simpa using Nat.succ_lt_succ hk)
      simpa using hs
    have hunfold : List.enumFrom s (b :: t) = (s, b) :: List.enumFrom (s + 1) t := rfl
    rw [hunfold, List.foldl_cons,
      ih (s + 1) (fun x => if x = s then b p else f x) ht]
    by_cases h1 : s + 1 ≤ a ∧ a < s + 1 + t.length
    · rw [if_pos h1, if_pos (by simp only [List.length_cons]; omega)]
    · rw [if_neg h1]
      by_cases h2 : a = s
      · rw [if_pos h2, if_pos (by simp only [List.length_cons]; omega)]
        exact hb
      · rw [if_neg h2, if_neg (by simp only [List.length_cons]; omega)]

/-- getD of a map over enumFrom, within range: the k-th element is the
image of (s + k, k-th fine block). -/
theorem enumFromMapGetD {n : ℕ} (g : ℕ × VBlk n → VBlk n) :
    ∀ (fine : FVec n) (s k : ℕ), k < fine.length →
      ((List.enumFrom s fine).map g).getD k (fun _ => 0)
        = g (s + k, fine.getD k (fun _ => 0)) := by
  intro fine
  induction fine with
  | nil => intro s k hk; simp at hk
  | cons b t ih =>
    intro s k hk
    have hunfold : List.enumFrom s (b :: t) = (s, b) :: List.enumFrom (s + 1) t := rfl
    rw [hunfold]
    cases k with
    | zero => simp
    | succ k =>
      have hk2 : k < t.length := by simpa using Nat.lt_of_succ_lt_succ hk
      simp only [List.map_cons, List.getD_cons_succ]
      rw [ih (s + 1) k hk2]
      have harith : s + 1 + k = s + (k + 1) := by omega
      rw [harith]

/-- The block at index k of the aggregation-mode prolongation result:
unchanged for an ISOLATED vertex, otherwise the damped coarse solution at
the vertex's aggregate is added to the pressure component. -/
theorem moveToFineLevelTrue_at {n : ℕ} (p : Fin n) (agg : ℕ → Option ℕ)
    (damp : ℚ) (lhs : ℕ → ℚ) (fine : FVec n) (k : ℕ) (hk : k < fine.length) :
    vecAt (moveToFineLevel true p agg damp lhs fine) k
      = match agg k with
        | none => vecAt fine k
        | some I => fun c => if c = p then vecAt fine k c + damp * lhs I
            else vecAt fine k c := by
  have hshow : moveToFineLevel true p agg damp lhs fine
      = (List.enumFrom 0 fine).map (fun kb =>
          match agg kb.1 with
          | none => kb.2
          | some I => fun c => if c = p then kb.2 c + damp * lhs I else kb.2 c) := rfl
  rw [vecAt, hshow, enumFromMapGetD _ fine 0 k hk, Nat.zero_add]
  rfl

/-- The block at index k of the direct-mode prolongation result: the
pressure component is overwritten with the coarse solution at index k,
the other components are unchanged. -/
theorem moveToFineLevelFalse_at {n : ℕ} (p : Fin n) (agg : ℕ → Option ℕ)
    (damp : ℚ) (lhs : ℕ → ℚ) (fine : FVec n) (k : ℕ) (hk : k < fine.length) :
    vecAt (moveToFineLevel false p agg damp lhs fine) k
      = fun c => if c = p then lhs k else vecAt fine k c := by
  have hshow : moveToFineLevel false p agg damp lhs fine
      = (List.enumFrom 0 fine).map (fun kb =>
          fun c => if c = p then lhs kb.1 else kb.2 c) := rfl
  rw [vecAt, hshow, enumFromMapGetD _ fine 0 k hk, Nat.zero_add]
  rfl

/-- The block at index k of the zero vector is the zero block. -/
theorem zeroVec_at {n : ℕ} (len k : ℕ) (hk : k < len) :
    vecAt (zeroVec n len) k = fun _ => 0 := by
  rw [vecAt, zeroVec,
    List.getD_eq_getElem _ _ (by rw [List.length_replicate]; exact hk),
    List.getElem_replicate]

/-- C4 fails on the code in aggregation mode: with both fine vertices in
aggregate 0 and a constant pressure defect of 1 per block, restriction
sums the two contributions (rhs 2), and prolonging that value back yields
2, not the original constant 1. -/
theorem C4_counterexample :
    vecAt (moveToFineLevel true (0 : Fin 2) aggC4 1
        (moveToCoarseLevel true 0 aggC4 fineC4) (zeroVec 2 fineC4.length)) 0 0
      ≠ vecAt fineC4 0 0 := by
  have h2 : vecAt fineC4 0 0 = 1 := rfl
  have hlhs : moveToCoarseLevel true (0 : Fin 2) aggC4 fineC4 0 = 2 := by
    have h1 := mtcAggAux (0 : Fin 2) aggC4 fineC4.enum (fun _ => 0) 0
    have h0 : moveToCoarseLevel true (0 : Fin 2) aggC4 fineC4 0
        = (fun _ => (0 : ℚ)) 0 + (fineC4.enum.map
            (fun kb => if aggC4 kb.1 = some 0 then kb.2 0 else 0)).sum := h1
    rw [h0]
    norm_num [fineC4, aggC4, List.enum, List.enumFrom]
  have h1 : vecAt (moveToFineLevel true (0 : Fin 2) aggC4 1
      (moveToCoarseLevel true 0 aggC4 fineC4) (zeroVec 2 fineC4.length)) 0 0 = 2 := by
    rw [moveToFineLevelTrue_at (0 : Fin 2) aggC4 1 _ _ 0 (by norm_num [zeroVec, fineC4])]
    show (if (0 : Fin 2) = 0
        then vecAt (zeroVec 2 fineC4.length) 0 0
          + 1 * moveToCoarseLevel true (0 : Fin 2) aggC4 fineC4 0
        else vecAt (zeroVec 2 fineC4.length) 0 0) = 2
    rw [if_pos rfl, zeroVec_at _ 0 (by norm_num [fineC4]), hlhs]
    norm_num
  rw [h1, h2]
  norm_num

/-- C4 amended: the restriction/prolongation round trip on a defect with
constant pressure component c (coarse solution set to the restricted
right-hand side, damping factor 1, prolongation applied to a zero fine
vector) reproduces c at every fine vertex in direct-extraction mode; in
aggregation mode it produces c times the number of fine vertices in the
vertex's aggregate at every non-ISOLATED vertex (hence c exactly when the
aggregate is a singleton), and 0 at ISOLATED vertices. -/
theorem C4_roundtrip_amended {n : ℕ} (p : Fin n) (agg : ℕ → Option ℕ)
    (fine : FVec n) (c : ℚ)
    (hc : ∀ k, k < fine.length → vecAt fine k p = c)
    (k : ℕ) (hk : k < fine.length) :
    vecAt (moveToFineLevel false p agg 1
        (moveToCoarseLevel false p agg fine) (zeroVec n fine.length)) k p = c
    ∧ vecAt (moveToFineLevel true p agg 1
        (moveToCoarseLevel true p agg fine) (zeroVec n fine.length)) k p
      = (match agg k with
         | some I => c * ((aggSize agg I fine : ℕ) : ℚ)
         | none => 0) := by
  have hkz : k < (zeroVec n fine.length).length := by
    rw [zeroVec, List.length_replicate]
    exact hk
  constructor
  · rw [moveToFineLevelFalse_at p agg 1 _ _ k hkz]
    show (if p = p then moveToCoarseLevel false p agg fine k
        else vecAt (zeroVec n fine.length) k p) = c
    rw [if_pos rfl]
    have hdir : moveToCoarseLevel false p agg fine k
        = if 0 ≤ k ∧ k < 0 + fine.length then c else (fun _ => (0 : ℚ)) k :=
      mtcDirectConst p c fine 0 (fun _ => 0) hc k
    rw [hdir, if_pos ⟨Nat.zero_le k, by omega⟩]
  · rw [moveToFineLevelTrue_at p agg 1 _ _ k hkz]
    cases hagg : agg k with
    | none =>
      show vecAt (zeroVec n fine.length) k p = 0
      rw [zeroVec_at _ k hk]
    | some I =>
      show (if p = p then vecAt (zeroVec n fine.length) k p
          + 1 * moveToCoarseLevel true p agg fine I
          else vecAt (zeroVec n fine.length) k p)
        = c * ((aggSize agg I fine : ℕ) : ℚ)
      rw [if_pos rfl, zeroVec_at _ k hk]
      have hms : moveToCoarseLevel true p agg fine I
          = c * ((aggSize agg I fine : ℕ) : ℚ) := by
        have h0 : moveToCoarseLevel true p agg fine I
            = (fun _ => (0 : ℚ)) I + (fine.enum.map
                (fun kb => if agg kb.1 = some I then kb.2 p else 0)).sum :=
          mtcAggAux p agg fine.enum (fun _ => 0) I
        have henum : fine.enum = List.enumFrom 0 fine := rfl
        rw [h0, henum, mtcSumConst p agg c I fine 0 hc]
        have haggsz : ((List.enumFrom 0 fine).filter
            (fun kb => decide (agg kb.1 = some I))).length = aggSize agg I fine := rfl
        rw [haggsz]
        exact zero_add _
      rw [hms]
      norm_num

/-- Witness for C4 at a concrete input: two fine blocks with pressure
component 5, singleton aggregates; the direct round trip gives 5 and the
aggregation round trip gives 5 times the aggregate size. -/
theorem C4_witness :
    vecAt (moveToFineLevel false (0 : Fin 2) aggW4 1
        (moveToCoarseLevel false 0 aggW4 fineW4) (zeroVec 2 fineW4.length)) 0 0 = 5
    ∧ vecAt (moveToFineLevel true (0 : Fin 2) aggW4 1
        (moveToCoarseLevel true 0 aggW4 fineW4) (zeroVec 2 fineW4.length)) 0 0
      = (match aggW4 0 with
         | some I => 5 * ((aggSize aggW4 I fineW4 : ℕ) : ℚ)
         | none => 0) :=
  C4_roundtrip_amended 0 aggW4 fineW4 5
    (by
      intro k hk
      have h2 : k < 2 := hk
      interval_cases k
      · rfl
      · rfl)
    0 (by decide)

/-- C5 fails on the code in direct-extraction mode: moveToFineLevel
overwrites the pressure component with the coarse solution instead of
adding it.  With fine pressure value 5 and coarse solution 3 the result
is 3, not 5 + 3. -/
theorem C5_counterexample :
    vecAt (moveToFineLevel false (0 : Fin 2) aggW5 1 lhsC5 fineC5) 0 0
      ≠ vecAt fineC5 0 0 + lhsC5 0 := by
  have h1 : vecAt (moveToFineLevel false (0 : Fin 2) aggW5 1 lhsC5 fineC5) 0 0
      = 3 := by
    rw [moveToFineLevelFalse_at (0 : Fin 2) aggW5 1 lhsC5 fineC5 0 (by norm_num [fineC5])]
    show (if (0 : Fin 2) = 0 then lhsC5 0 else vecAt fineC5 0 0) = 3
    rw [if_pos rfl]
    rfl
  have h2 : vecAt fineC5 0 0 + lhsC5 0 = 8 := by
    show (5 : ℚ) + 3 = 8
    norm_num
  rw [h1, h2]
  norm_num

/-- C5 amended: in aggregation mode moveToFineLevel adds the damped
coarse solution at the vertex's aggregate into the fine pressure
component and leaves ISOLATED vertices unchanged; in direct-extraction
mode it overwrites the fine pressure component with the coarse solution
at the block's own index.  Components other than the pressure component
are unchanged in both modes. -/
theorem C5_moveToFineLevel_modes {n : ℕ} (p : Fin n) (agg : ℕ → Option ℕ)
    (damp : ℚ) (lhs : ℕ → ℚ) (fine : FVec n) (k : ℕ) (hk : k < fine.length)
    (c : Fin n) :
    vecAt (moveToFineLevel true p agg damp lhs fine) k c
      = (match agg k with
         | some I => if c = p then vecAt fine k c + damp * lhs I
             else vecAt fine k c
         | none => vecAt fine k c)
    ∧ vecAt (moveToFineLevel false p agg damp lhs fine) k c
      = if c = p then lhs k else vecAt fine k c := by
  constructor
  · rw [moveToFineLevelTrue_at p agg damp lhs fine k hk]
    cases hagg : agg k <;> rfl
  · rw [moveToFineLevelFalse_at p agg damp lhs fine k hk]

/-- Witness for C5 at a concrete input: one fine block with components
2 and 7, aggregate 0 everywhere, coarse solution 10, damping 1. -/
theorem C5_witness :
    (vecAt (moveToFineLevel true (0 : Fin 2) aggW5 1 lhsW5 fineW5) 0 0
      = (match aggW5 0 with
         | some I => if (0 : Fin 2) = 0 then vecAt fineW5 0 0 + 1 * lhsW5 I
             else vecAt fineW5 0 0
         | none => vecAt fineW5 0 0))
    ∧ vecAt (moveToFineLevel false (0 : Fin 2) aggW5 1 lhsW5 fineW5) 0 0
      = if (0 : Fin 2) = 0 then lhsW5 0 else vecAt fineW5 0 0 :=
  C5_moveToFineLevel_modes 0 aggW5 1 lhsW5 fineW5 0 (by decide) 0

/-- The block at index k of a mapped block vector, within range. -/
theorem vecAt_map {n : ℕ} (f : VBlk n → VBlk n) (d : FVec n) (k : ℕ)
    (hk : k < d.length) :
    vecAt (d.map f) k = f (vecAt d k) := by
  rw [vecAt, vecAt,
    List.getD_eq_getElem _ _ (by rw [List.length_map]; exact hk),
    List.getD_eq_getElem _ _ hk, List.getElem_map]

/-- C7: BlackoilAmg::apply leaves the supplied defect untouched (it
scales a copy), and the defect handed to the two-level method is the
quasi-IMPES-scaled copy: per block, its pressure component is the
original pressure component plus the sum of all other components, and
every other component is unchanged.  Because the scaled copy is a
function of d alone, equal defects across two calls yield equal scaled
defects. -/
theorem C7_apply_scales_copy {n : ℕ} (p : Fin n) (d : FVec n) (k : ℕ)
    (hk : k < d.length) :
    (blackoilAmgApply p d).1 = d
    ∧ vecAt (blackoilAmgApply p d).2 k p
        = vecAt d k p + ∑ i ∈ Finset.univ.erase p, vecAt d k i
    ∧ ∀ c, c ≠ p → vecAt (blackoilAmgApply p d).2 k c = vecAt d k c := by
  have hsnd : (blackoilAmgApply p d).2 = d.map (scaleVecBlock p) := rfl
  have hblk : vecAt (blackoilAmgApply p d).2 k = scaleVecBlock p (vecAt d k) := by
    rw [hsnd, vecAt_map _ d k hk]
  refine ⟨rfl, ?_, ?_⟩
  · rw [hblk, scaleVecBlock_apply, if_pos rfl]
    exact (Finset.add_sum_erase Finset.univ _ (Finset.mem_univ p)).symm
  · intro c hc
    rw [hblk, scaleVecBlock_apply, if_neg hc]

/-- Witness for C7 at a concrete input: one defect block with components
3 and 4 and pressure index 0; the scaled pressure component is 3 + 4. -/
theorem C7_witness :
    (blackoilAmgApply (0 : Fin 2) dW7).1 = dW7
    ∧ vecAt (blackoilAmgApply (0 : Fin 2) dW7).2 0 0
        = vecAt dW7 0 0 + ∑ i ∈ Finset.univ.erase (0 : Fin 2), vecAt dW7 0 i
    ∧ vecAt (blackoilAmgApply (0 : Fin 2) dW7).2 0 1 = vecAt dW7 0 1 :=
  ⟨(C7_apply_scales_copy 0 dW7 0 (by decide)).1,
   (C7_apply_scales_copy 0 dW7 0 (by decide)).2.1,
   (C7_apply_scales_copy 0 dW7 0 (by decide)).2.2 1 (by decide)⟩

/-- C9: AMGInverseOperator::apply ignores its reduction argument: for any
two reduction values the computed result is identical; the
default-tolerance overload is the same call with reduction 1e-8; and the
tolerance actually handed to the Krylov accelerator is always the
configured cpr_solver_tol_ parameter (together with cpr_max_ell_iter_ and
the rank-0 verbosity flag), for either accelerator and either
preconditioner choice. -/
theorem C9_reduction_ignored {V R Prec : Type} (param : CPRParameter)
    (amg smoother : Prec)
    (bicgstab cg : Prec → ℚ → ℕ → ℕ → V → V → V × R)
    (rank : ℕ) (x b : V) (r1 r2 : ℚ) :
    amgInverseApply param amg smoother bicgstab cg rank x b r1
        = amgInverseApply param amg smoother bicgstab cg rank x b r2
    ∧ amgInverseApplyDefault param amg smoother bicgstab cg rank x b
        = amgInverseApply param amg smoother bicgstab cg rank x b (1 / 100000000)
    ∧ amgInverseApply param amg smoother bicgstab cg rank x b r1
        = (if param.cpr_use_bicgstab_
           then bicgstab (if param.cpr_use_amg_ then amg else smoother)
             param.cpr_solver_tol_ param.cpr_max_ell_iter_
             (if param.cpr_solver_verbose_ ∧ rank = 0 then 1 else 0) x b
           else cg (if param.cpr_use_amg_ then amg else smoother)
             param.cpr_solver_tol_ param.cpr_max_ell_iter_
             (if param.cpr_solver_verbose_ ∧ rank = 0 then 1 else 0) x b) :=
  ⟨rfl, rfl, rfl⟩

/-- C10: the quasi-IMPES matrix scaling in the BlackoilAmg constructor
leaves the caller's fine matrix unchanged: the scaling acts on a freshly
allocated copy, which becomes the preconditioner's scaled matrix, while
the fine matrix after the call is exactly the fine matrix before it. -/
theorem C10_fine_matrix_unchanged {n : ℕ} (p : Fin n)
    (st : ConstructorState n) :
    (runScaleMatrixQuasiImpes p st).fineMatrix = st.fineMatrix
    ∧ (runScaleMatrixQuasiImpes p st).scaledMatrix
        = some (scaleMatrixQuasiImpes p st.fineMatrix) :=
  ⟨rfl, rfl⟩

end OpmBlackoilAmg
